import Mathlib

/-!
Verification of the call-coalescing combinator `coalesce` (src/coalesce.ts).

The source exports a single function `coalesce(fn)` returning a closure `run`
over two mutable booleans `isRunning` and `hasPending`.  `run(...args)`:

* if `isRunning` is set, it records `hasPending = true` and returns;
* otherwise it sets `isRunning`, calls `fn(...args)`, and
  - if the result passes the structural thenable test
    (`result !== null && (typeof result === 'object' || typeof result ===
    'function') && typeof result.then === 'function'`), attaches
    `.catch(() => {}).finally(complete)` and returns;
  - if the call throws, runs `complete()` and re-throws;
  - otherwise runs `complete()` synchronously.

`complete` clears `isRunning` and, when `hasPending` was set, clears it and
re-enters `run(...args)` with the closure's own `args` — the arguments of the
execution that just completed.

The embedding below is a fuel-indexed big-step interpreter for this state
machine.  The runner state carries the two booleans of the source, the
attached settle handler (`deferred`, holding the closure arguments of the
`complete` that the settle callback will call), and a ghost log `calls` of
every invocation of the wrapped task together with its arguments.  The
wrapped task is modelled as a per-call behaviour that may reentrantly call
`run`, then either return a JavaScript value or throw.  Fuel exhaustion is
`none`; every claim is stated either for all fuels that produce a result or
with an explicit fuel pattern large enough for the trace at hand.
-/

namespace Coalesce

/-- Argument lists passed to `run` and to the wrapped task. -/
abbrev Args := List Int

/-- Errors thrown by the wrapped task, identified by a code. -/
abbrev Err := Nat

/-- The `typeof` tags of JavaScript values that the embedding distinguishes. -/
inductive JsType where
  | undefinedT
  | booleanT
  | numberT
  | stringT
  | objectT
  | functionT
deriving DecidableEq, Repr

/-- JavaScript values as far as the thenable duck test can distinguish them:
primitives, `null`, and object/function values that either do or do not
expose a callable `then` member. -/
inductive JsValue where
  | nullV
  | undefV
  | boolV (b : Bool)
  | numV (n : Int)
  | strV (s : String)
  | objV (thenCallable : Bool)
  | funV (thenCallable : Bool)
deriving DecidableEq, Repr

/-- Result of the JavaScript `typeof` operator, as a string (note
`typeof null` is the string for objects). -/
def typeofStr : JsValue → String
  | .nullV => "object"
  | .undefV => "undefined"
  | .boolV _ => "boolean"
  | .numV _ => "number"
  | .strV _ => "string"
  | .objV _ => "object"
  | .funV _ => "function"

/-- Member lookup `v.then`: a callable member on those object/function values
that carry one, `undefined` everywhere else (primitives have no own `then`). -/
def thenMember : JsValue → JsValue
  | .objV true => .funV false
  | .funV true => .funV false
  | _ => .undefV

/-- Transcription of the condition guarding the deferred branch in `run`:
`result !== null && (typeof result === 'object' || typeof result ===
'function') && typeof result.then === 'function'`. -/
def isThenable (v : JsValue) : Bool :=
  !(v == JsValue.nullV) &&
    (typeofStr v == "object" || typeofStr v == "function") &&
    typeofStr (thenMember v) == "function"

/-- Semantic `typeof` tag of a value. -/
def JsValue.typeof : JsValue → JsType
  | .nullV => .objectT
  | .undefV => .undefinedT
  | .boolV _ => .booleanT
  | .numV _ => .numberT
  | .strV _ => .stringT
  | .objV _ => .objectT
  | .funV _ => .functionT

/-- Whether a value is the `null` value. -/
def JsValue.isNull : JsValue → Bool
  | .nullV => true
  | _ => false

/-- Whether a value exposes a callable `then` member. -/
def JsValue.hasCallableThen : JsValue → Bool
  | .objV t => t
  | .funV t => t
  | _ => false

/-- Thenable detection as the specification words it: a non-null value of
object or callable kind exposing a callable member named `then`.  Stated
independently of `isThenable` so the two can be compared. -/
def specThenable (v : JsValue) : Bool :=
  !v.isNull &&
    (v.typeof == JsType.objectT || v.typeof == JsType.functionT) &&
    v.hasCallableThen

/-- Behaviour of one invocation of the wrapped task: any finite sequence of
reentrant calls to `run` made from inside the task body, ending either in a
normal return of a JavaScript value or in a synchronous throw. -/
inductive TaskAct where
  | ret (v : JsValue)
  | thrw (e : Err)
  | reinvoke (a : Args) (k : TaskAct)
deriving DecidableEq, Repr

/-- A wrapped task: given the number of earlier task invocations (so a task
may behave differently from call to call, like a stateful closure) and the
argument list, the behaviour of this invocation. -/
abbrev Task := Nat → Args → TaskAct

/-- Runner state.  `isRunning` and `hasPending` are the two mutable booleans
of the source.  `deferred` is `some a` exactly while a settle handler
`.catch(() => {}).finally(complete)` is attached to an outstanding thenable,
where `a` is the `args` the attached `complete` closes over.  `calls` is a
ghost log of task invocations (the argument list of each, oldest first). -/
structure S where
  isRunning : Bool
  hasPending : Bool
  deferred : Option Args
  calls : List Args
deriving DecidableEq, Repr

/-- The initial runner state: idle, nothing pending, no handler attached,
no task invocation yet. -/
def S.init : S := ⟨false, false, none, []⟩

mutual

/-- The closure `run` of the source, as a big-step interpreter.  Returns the
state when `run` returns control to its caller, together with the error `run`
throws at that caller, if any; `none` means the fuel ran out. -/
def run (task : Task) : Nat → S → Args → Option (S × Option Err)
  | 0, _, _ => none
  | fuel+1, s, args =>
    if s.isRunning then
      some ({s with hasPending := true}, none)
    else
      match execTask task fuel
          {s with isRunning := true, calls := s.calls ++ [args]}
          (task s.calls.length args) with
      | none => none
      | some (s2, Sum.inl v) =>
        if isThenable v then
          some ({s2 with deferred := some args}, none)
        else
          complete task fuel s2 args
      | some (s2, Sum.inr e) =>
        match complete task fuel s2 args with
        | none => none
        | some (s3, some e2) => some (s3, some e2)
        | some (s3, none) => some (s3, some e)

/-- Evaluation of one task body: performs its reentrant `run` calls in order
and ends with `Sum.inl v` (the task returned `v`) or `Sum.inr e` (the task
threw `e`).  An error thrown by a reentrant `run` call propagates out of the
task body as a throw of the task itself. -/
def execTask (task : Task) : Nat → S → TaskAct → Option (S × (JsValue ⊕ Err))
  | 0, _, _ => none
  | _+1, s, .ret v => some (s, Sum.inl v)
  | _+1, s, .thrw e => some (s, Sum.inr e)
  | fuel+1, s, .reinvoke a k =>
    match run task fuel s a with
    | none => none
    | some (s2, none) => execTask task fuel s2 k
    | some (s2, some e) => some (s2, Sum.inr e)

/-- The closure `complete` of the source: clear `isRunning`; if `hasPending`
is set, clear it and re-enter `run` with the closure's own `args`. -/
def complete (task : Task) : Nat → S → Args → Option (S × Option Err)
  | 0, _, _ => none
  | fuel+1, s, args =>
    if s.hasPending then
      run task fuel {s with isRunning := false, hasPending := false} args
    else
      some ({s with isRunning := false}, none)

end

/-- External events driving a runner: a call of the returned closure, or the
settlement (fulfillment, or rejection with a reason) of the thenable an
execution returned.  Settlement runs the attached
`.catch(() => {}).finally(complete)` handler. -/
inductive Event where
  | invoke (args : Args)
  | settleOk
  | settleErr (reason : Err)
deriving DecidableEq, Repr

/-- The settle callback: if a handler is attached, detach it and run the
`complete` it closes over.  The rejection reason was already swallowed by
`.catch(() => {})`, and an error escaping `complete` inside the settle
callback surfaces to no caller of `run`, so the driver reports no error. -/
def settleStep (task : Task) (fuel : Nat) (s : S) : Option (S × Option Err) :=
  match s.deferred with
  | none => some (s, none)
  | some args =>
    match complete task fuel {s with deferred := none} args with
    | none => none
    | some (s2, _) => some (s2, none)

/-- One external event.  The returned error is what this event throws at its
external caller (only an `invoke` can throw at its caller). -/
def step (task : Task) (fuel : Nat) (s : S) : Event → Option (S × Option Err)
  | .invoke args => run task fuel s args
  | .settleOk => settleStep task fuel s
  | .settleErr _ => settleStep task fuel s

/-- Run a sequence of external events from a state, collecting the final
state and, per event, the error it threw at its external caller. -/
def runEvents (task : Task) (fuel : Nat) : S → List Event → Option (S × List (Option Err))
  | s, [] => some (s, [])
  | s, e :: es =>
    match step task fuel s e with
    | none => none
    | some (s1, err) =>
      match runEvents task fuel s1 es with
      | none => none
      | some (s2, errs) => some (s2, err :: errs)

/-- A task that always returns the same value. -/
def retTask (v : JsValue) : Task := fun _ _ => .ret v

/-- A task that always returns a thenable (models an async function whose
promise settles only on an external signal). -/
def asyncTask : Task := retTask (.objV true)

/-- A task that throws `e` on its first invocation and returns normally on
every later one. -/
def throwThenRet (e : Err) : Task :=
  fun n _ => if n = 0 then .thrw e else .ret .undefV

/-- A task that, on its first invocation, reentrantly calls `run` with
arguments `b` and then throws `e`; later invocations return normally. -/
def reinvokeThrowTask (b : Args) (e : Err) : Task :=
  fun n _ => if n = 0 then .reinvoke b (.thrw e) else .ret .undefV

/-- While an execution is in flight, `run` only records the pending flag and
throws nothing; the task is not consulted. -/
lemma run_busy (task : Task) (fuel : Nat) (s : S) (args : Args)
    (h : s.isRunning = true) :
    run task (fuel+1) s args = some ({s with hasPending := true}, none) := by
  simp [run, h]

/-- A task body executed while `isRunning` is set can only toggle
`hasPending`: its reentrant `run` calls all take the early-return branch, so
`isRunning`, the attached handler and the call log are untouched. -/
lemma execTask_busy (task : Task) :
    ∀ (fuel : Nat) (s : S) (act : TaskAct) (s' : S) (r : JsValue ⊕ Err),
      s.isRunning = true → execTask task fuel s act = some (s', r) →
      s'.isRunning = true ∧ s'.calls = s.calls ∧ s'.deferred = s.deferred := by
  intro fuel
  induction fuel with
  | zero =>
    intro s act s' r _ hx
    simp [execTask] at hx
  | succ g ih =>
    intro s act s' r hrun hx
    cases act with
    | ret v =>
      simp [execTask] at hx
      obtain ⟨h1, _⟩ := hx
      subst h1
      exact ⟨hrun, rfl, rfl⟩
    | thrw e =>
      simp [execTask] at hx
      obtain ⟨h1, _⟩ := hx
      subst h1
      exact ⟨hrun, rfl, rfl⟩
    | reinvoke a k =>
      rw [execTask] at hx
      cases g with
      | zero => simp [run] at hx
      | succ g2 =>
        rw [run_busy task g2 s a hrun] at hx
        simp only [] at hx
        have res := ih {s with hasPending := true} k s' r (by simpa using hrun) hx
        simpa using res

/-- Calls appended by `run` and `complete`: every task invocation performed
while serving `run task fuel s args` — the immediate one and every follow-up
chained from it — receives exactly the argument list `args`, so the log grows
by a replicate of `args`.  Stated for `run` and `complete` together because
the two recurse into each other. -/
lemma run_complete_calls (task : Task) : ∀ fuel : Nat,
    (∀ s args s' e, run task fuel s args = some (s', e) →
      ∃ k, s'.calls = s.calls ++ List.replicate k args) ∧
    (∀ s args s' e, complete task fuel s args = some (s', e) →
      ∃ k, s'.calls = s.calls ++ List.replicate k args) := by
  intro fuel
  induction fuel with
  | zero =>
    constructor <;> intro s args s' e h <;> simp [run, complete] at h
  | succ g ih =>
    obtain ⟨ihr, ihc⟩ := ih
    constructor
    · intro s args s' e h
      rw [run] at h
      cases hb : s.isRunning with
      | true =>
        simp only [hb, if_true, Option.some.injEq, Prod.mk.injEq] at h
        obtain ⟨h1, _⟩ := h
        exact ⟨0, by simp [← h1]⟩
      | false =>
        simp only [hb, Bool.false_eq_true, if_false] at h
        cases hx : execTask task g
            {s with isRunning := true, calls := s.calls ++ [args]}
            (task s.calls.length args) with
        | none => rw [hx] at h; exact absurd h (by simp)
        | some p =>
          obtain ⟨s2, r⟩ := p
          rw [hx] at h
          have hcalls : s2.calls = s.calls ++ [args] :=
            (execTask_busy task g _ _ s2 r (by simp) hx).2.1
          cases r with
          | inl v =>
            by_cases ht : isThenable v = true
            · simp only [ht, if_true, Option.some.injEq, Prod.mk.injEq] at h
              obtain ⟨h1, _⟩ := h
              exact ⟨1, by simp [← h1, hcalls]⟩
            · simp only [ht, if_false] at h
              obtain ⟨k, hk⟩ := ihc s2 args s' e h
              exact ⟨k + 1, by
                simp [hk, hcalls, List.replicate_succ, List.append_assoc]⟩
          | inr e2 =>
            simp only [] at h
            cases hc : complete task g s2 args with
            | none => rw [hc] at h; exact absurd h (by simp)
            | some q =>
              obtain ⟨s3, oe⟩ := q
              obtain ⟨k, hk⟩ := ihc s2 args s3 oe hc
              rw [hc] at h
              have h3 : s' = s3 := by
                cases oe <;> simp at h <;> exact h.1.symm
              exact ⟨k + 1, by
                subst h3
                simp [hk, hcalls, List.replicate_succ, List.append_assoc]⟩
    · intro s args s' e h
      rw [complete] at h
      cases hb : s.hasPending with
      | true =>
        simp only [hb, if_true] at h
        obtain ⟨k, hk⟩ := ihr _ args s' e h
        exact ⟨k, by simpa using hk⟩
      | false =>
        simp only [hb, Bool.false_eq_true, if_false, Option.some.injEq,
          Prod.mk.injEq] at h
        obtain ⟨h1, _⟩ := h
        exact ⟨0, by simp [← h1]⟩

/-- The corollary of `run_complete_calls` for `run` alone. -/
lemma run_calls (task : Task) (fuel : Nat) (s : S) (args : Args) (s' : S)
    (e : Option Err) (h : run task fuel s args = some (s', e)) :
    ∃ k, s'.calls = s.calls ++ List.replicate k args :=
  (run_complete_calls task fuel).1 s args s' e h

/-- The corollary of `run_complete_calls` for `complete` alone. -/
lemma complete_calls (task : Task) (fuel : Nat) (s : S) (args : Args) (s' : S)
    (e : Option Err) (h : complete task fuel s args = some (s', e)) :
    ∃ k, s'.calls = s.calls ++ List.replicate k args :=
  (run_complete_calls task fuel).2 s args s' e h

/-- Pending implies running, for the states in which `run` and `complete`
return control: whenever either returns, a set `hasPending` can only be
observed together with a set `isRunning` (the completion step always consumes
the pending flag before going idle). -/
lemma run_complete_pending (task : Task) : ∀ fuel : Nat,
    (∀ s args s' e, run task fuel s args = some (s', e) →
      s'.hasPending = true → s'.isRunning = true) ∧
    (∀ s args s' e, complete task fuel s args = some (s', e) →
      s'.hasPending = true → s'.isRunning = true) := by
  intro fuel
  induction fuel with
  | zero =>
    constructor <;> intro s args s' e h <;> simp [run, complete] at h
  | succ g ih =>
    obtain ⟨ihr, ihc⟩ := ih
    constructor
    · intro s args s' e h
      rw [run] at h
      cases hb : s.isRunning with
      | true =>
        simp only [hb, if_true, Option.some.injEq, Prod.mk.injEq] at h
        obtain ⟨h1, _⟩ := h
        intro _
        rw [← h1]
      | false =>
        simp only [hb, Bool.false_eq_true, if_false] at h
        cases hx : execTask task g
            {s with isRunning := true, calls := s.calls ++ [args]}
            (task s.calls.length args) with
        | none => rw [hx] at h; exact absurd h (by simp)
        | some p =>
          obtain ⟨s2, r⟩ := p
          rw [hx] at h
          have hrun2 : s2.isRunning = true :=
            (execTask_busy task g _ _ s2 r (by simp) hx).1
          cases r with
          | inl v =>
            by_cases ht : isThenable v = true
            · simp only [ht, if_true, Option.some.injEq, Prod.mk.injEq] at h
              obtain ⟨h1, _⟩ := h
              intro _
              rw [← h1]
              exact hrun2
            · simp only [ht, if_false] at h
              exact ihc s2 args s' e h
          | inr e2 =>
            simp only [] at h
            cases hc : complete task g s2 args with
            | none => rw [hc] at h; exact absurd h (by simp)
            | some q =>
              obtain ⟨s3, oe⟩ := q
              rw [hc] at h
              have h3 : s' = s3 := by
                cases oe <;> simp at h <;> exact h.1.symm
              subst h3
              exact ihc s2 args s' oe hc
    · intro s args s' e h
      rw [complete] at h
      cases hb : s.hasPending with
      | true =>
        simp only [hb, if_true] at h
        exact ihr _ args s' e h
      | false =>
        simp only [hb, Bool.false_eq_true, if_false, Option.some.injEq,
          Prod.mk.injEq] at h
        obtain ⟨h1, _⟩ := h
        intro hp
        rw [← h1] at hp
        simp [hb] at hp

/-- The pending-implies-running guarantee transfers to every external event:
a settle event either finds no handler (state unchanged) or runs `complete`. -/
lemma step_pending (task : Task) (fuel : Nat) (s : S) (ev : Event) (s' : S)
    (err : Option Err) (h : step task fuel s ev = some (s', err))
    (hs : s.hasPending = true → s.isRunning = true) :
    s'.hasPending = true → s'.isRunning = true := by
  cases ev with
  | invoke args => exact (run_complete_pending task fuel).1 s args s' err h
  | settleOk =>
    rw [step, settleStep] at h
    cases hd : s.deferred with
    | none =>
      rw [hd] at h
      simp only [Option.some.injEq, Prod.mk.injEq] at h
      obtain ⟨h1, _⟩ := h
      rw [← h1]
      exact hs
    | some a =>
      rw [hd] at h
      simp only [] at h
      cases hc : complete task fuel {s with deferred := none} a with
      | none => rw [hc] at h; exact absurd h (by simp)
      | some q =>
        obtain ⟨s2, oe⟩ := q
        rw [hc] at h
        simp only [Option.some.injEq, Prod.mk.injEq] at h
        obtain ⟨h1, _⟩ := h
        rw [← h1]
        exact (run_complete_pending task fuel).2 _ a s2 oe hc
  | settleErr r =>
    rw [step, settleStep] at h
    cases hd : s.deferred with
    | none =>
      rw [hd] at h
      simp only [Option.some.injEq, Prod.mk.injEq] at h
      obtain ⟨h1, _⟩ := h
      rw [← h1]
      exact hs
    | some a =>
      rw [hd] at h
      simp only [] at h
      cases hc : complete task fuel {s with deferred := none} a with
      | none => rw [hc] at h; exact absurd h (by simp)
      | some q =>
        obtain ⟨s2, oe⟩ := q
        rw [hc] at h
        simp only [Option.some.injEq, Prod.mk.injEq] at h
        obtain ⟨h1, _⟩ := h
        rw [← h1]
        exact (run_complete_pending task fuel).2 _ a s2 oe hc

/-- The pending-implies-running guarantee is preserved along any event
sequence. -/
lemma runEvents_pending (task : Task) (fuel : Nat) :
    ∀ (events : List Event) (s : S),
      (s.hasPending = true → s.isRunning = true) →
      ∀ s' errs, runEvents task fuel s events = some (s', errs) →
        s'.hasPending = true → s'.isRunning = true := by
  intro events
  induction events with
  | nil =>
    intro s hs s' errs h
    simp only [runEvents, Option.some.injEq, Prod.mk.injEq] at h
    obtain ⟨h1, _⟩ := h
    rw [← h1]
    exact hs
  | cons ev es ih =>
    intro s hs s' errs h
    rw [runEvents] at h
    cases hst : step task fuel s ev with
    | none => rw [hst] at h; exact absurd h (by simp)
    | some p =>
      obtain ⟨s1, err⟩ := p
      rw [hst] at h
      simp only [] at h
      cases hrest : runEvents task fuel s1 es with
      | none => rw [hrest] at h; exact absurd h (by simp)
      | some q =>
        obtain ⟨s2, errs2⟩ := q
        rw [hrest] at h
        simp only [Option.some.injEq, Prod.mk.injEq] at h
        obtain ⟨h1, _⟩ := h
        rw [← h1]
        exact ih s1 (step_pending task fuel s ev s1 err hst hs) s2 errs2 hrest

/-- Coalesced calls are absorbed: with an execution in flight and the pending
flag already set, any burst of further `invoke` events leaves the state
untouched and throws nothing at the callers. -/
lemma runEvents_coalesced (task : Task) (fuel : Nat) :
    ∀ (cs : List Args) (s : S) (rest : List Event),
      s.isRunning = true → s.hasPending = true →
      runEvents task (fuel+1) s (cs.map Event.invoke ++ rest) =
        (runEvents task (fuel+1) s rest).map
          (fun p => (p.1, List.replicate cs.length none ++ p.2)) := by
  intro cs
  induction cs with
  | nil =>
    intro s rest _ _
    simp only [List.map_nil, List.nil_append, List.length_nil,
      List.replicate_zero]
    cases runEvents task (fuel+1) s rest with
    | none => simp
    | some p => simp
  | cons c cs ih =>
    intro s rest hrun hp
    have habs : ({s with hasPending := true} : S) = s := by
      obtain ⟨a, b, c', d⟩ := s
      simp at hp
      simp [hp]
    simp only [List.map_cons, List.cons_append, runEvents, step,
      run_busy task fuel s c hrun, habs, List.append_eq]
    rw [ih s rest hrun hp]
    cases runEvents task (fuel+1) s rest with
    | none => simp
    | some p => simp [List.replicate_succ]

/-- Invoking an idle runner whose task plainly returns `v`: the task runs at
once; a thenable leaves the runner running with a handler attached, anything
else completes synchronously. -/
lemma run_retTask_idle (fuel : Nat) (v : JsValue) (args : Args)
    (d : Option Args) (c : List Args) :
    run (retTask v) (fuel+2) ⟨false, false, d, c⟩ args =
      some (if isThenable v
        then (⟨true, false, some args, c ++ [args]⟩ : S)
        else ⟨false, false, d, c ++ [args]⟩, none) := by
  by_cases ht : isThenable v = true
  · simp [run, execTask, retTask, ht]
  · simp [run, execTask, complete, retTask, ht]

/-- Unfolding of `complete` when a follow-up is pending. -/
lemma complete_pending_eq (task : Task) (fuel : Nat) (s : S) (args : Args)
    (hp : s.hasPending = true) :
    complete task (fuel+1) s args =
      run task fuel {s with isRunning := false, hasPending := false} args := by
  rw [complete]
  simp [hp]

/-- Unfolding of `complete` when nothing is pending. -/
lemma complete_quiet_eq (task : Task) (fuel : Nat) (s : S) (args : Args)
    (hp : s.hasPending = false) :
    complete task (fuel+1) s args = some ({s with isRunning := false}, none) := by
  rw [complete]
  simp [hp]

example : run asyncTask 3 S.init [5] = some (⟨true, false, some [5], [[5]]⟩, none) := rfl

example : runEvents asyncTask 5 S.init [.invoke [1], .invoke [2], .settleOk] =
    some (⟨true, false, some [1], [[1], [1]]⟩, [none, none, none]) := rfl

example : runEvents (throwThenRet 7) 4 S.init [.invoke [1], .invoke [2]] =
    some (⟨false, false, none, [[1], [2]]⟩, [some 7, none]) := rfl

example : run (reinvokeThrowTask [9] 7) 6 S.init [1] =
    some (⟨false, false, none, [[1], [1]]⟩, some 7) := rfl

/-- Invoking the idle runner of an always-thenable task attaches the settle
handler over the call's own arguments. -/
lemma step_idle_async (fuel : Nat) (v : JsValue) (args : Args)
    (d : Option Args) (c : List Args) (hv : isThenable v = true) :
    step (retTask v) (fuel+2) ⟨false, false, d, c⟩ (.invoke args) =
      some (⟨true, false, some args, c ++ [args]⟩, none) := by
  have h := run_retTask_idle fuel v args d c
  rw [hv] at h
  simpa using h

/-- Settling the outstanding thenable with a follow-up pending: `complete`
chains into a fresh execution, replaying the stored closure arguments. -/
lemma settleStep_async_pending (fuel : Nat) (v : JsValue) (a : Args)
    (c : List Args) (hv : isThenable v = true) :
    settleStep (retTask v) (fuel+3) ⟨true, true, some a, c⟩ =
      some (⟨true, false, some a, c ++ [a]⟩, none) := by
  rw [settleStep]
  simp only []
  have hc : complete (retTask v) (fuel+3) ⟨true, true, none, c⟩ a =
      some (⟨true, false, some a, c ++ [a]⟩, none) := by
    rw [complete_pending_eq (retTask v) (fuel+2) ⟨true, true, none, c⟩ a rfl]
    have h := run_retTask_idle fuel v a none c
    rw [hv] at h
    simpa using h
  rw [hc]

/-- Settling the outstanding thenable with nothing pending returns the
runner to the idle state. -/
lemma settleStep_quiet (task : Task) (fuel : Nat) (a : Args) (c : List Args) :
    settleStep task (fuel+1) ⟨true, false, some a, c⟩ =
      some (⟨false, false, none, c⟩, none) := by
  rw [settleStep]
  simp only []
  rw [complete_quiet_eq task fuel ⟨true, false, none, c⟩ a rfl]

/-- Unfolding of `runEvents` one event at a time, given the step's result. -/
lemma runEvents_cons_eq {task : Task} {fuel : Nat} {s : S} {ev : Event}
    {es : List Event} {s1 : S} {err : Option Err}
    (h : step task fuel s ev = some (s1, err)) :
    runEvents task fuel s (ev :: es) =
      (runEvents task fuel s1 es).map (fun p => (p.1, err :: p.2)) := by
  rw [runEvents.eq_def]
  simp only []
  rw [h]
  simp only []
  cases runEvents task fuel s1 es with
  | none => rfl
  | some p => rfl

/-- C5: for every value the task returns, the deferred completion path is
taken exactly when the value passes the structural thenable test, and that
test agrees with the spec wording (non-null, of object or callable kind,
exposing a callable `then` member); for every other value the completion step
runs synchronously inside the same `run` call, so `run` hands back an
already-completed (idle) state. -/
theorem c5_thenable_detection (fuel : Nat) (v : JsValue) (args : Args)
    (c : List Args) :
    isThenable v = specThenable v ∧
    run (retTask v) (fuel+2) ⟨false, false, none, c⟩ args =
      some (if isThenable v
        then (⟨true, false, some args, c ++ [args]⟩ : S)
        else ⟨false, false, none, c ++ [args]⟩, none) := by
  constructor
  · cases v with
    | objV t => cases t <;> rfl
    | funV t => cases t <;> rfl
    | _ => rfl
  · exact run_retTask_idle fuel v args none c

/-- C6: at every observable point reached from the initial state, a set
`hasPending` flag is only seen while `isRunning` is set; and the completion
step always clears `hasPending` before the follow-up `run` it triggers
begins (the second conjunct exhibits the clearing: with the flag set,
`complete` equals `run` started from a state whose flag is already clear). -/
theorem c6_pending_only_while_running :
    (∀ (task : Task) (fuel : Nat) (events : List Event) (s : S)
      (errs : List (Option Err)),
      runEvents task fuel S.init events = some (s, errs) →
      s.hasPending = true → s.isRunning = true) ∧
    (∀ (task : Task) (fuel : Nat) (s : S) (args : Args),
      s.hasPending = true →
      complete task (fuel+1) s args =
        run task fuel {s with isRunning := false, hasPending := false} args) := by
  constructor
  · intro task fuel events s errs h
    exact runEvents_pending task fuel events S.init (by decide) s errs h
  · intro task fuel s args hp
    exact complete_pending_eq task fuel s args hp

/-- Witness for C6 at concrete inputs: after two back-to-back calls the
reachable state has both flags set, and a pending `complete` chains into
`run` on the cleared state. -/
theorem c6_pending_only_while_running_witness :
    (⟨true, true, some [0], [[0]]⟩ : S).isRunning = true ∧
    complete asyncTask 3 ⟨true, true, none, [[1]]⟩ [1] =
      run asyncTask 2 ⟨false, false, none, [[1]]⟩ [1] :=
  ⟨c6_pending_only_while_running.1 asyncTask 3 [.invoke [0], .invoke [1]]
      ⟨true, true, some [0], [[0]]⟩ [none, none] rfl rfl,
    c6_pending_only_while_running.2 asyncTask 2 ⟨true, true, none, [[1]]⟩ [1] rfl⟩

/-- C7: a call to `run` made while the runner is idle invokes the task with
the supplied arguments before `run` returns: the call log the returned state
carries extends the old one with that very invocation (followed only by the
follow-ups chained from it). -/
theorem c7_idle_invokes_synchronously (task : Task) (fuel : Nat) (s : S)
    (args : Args) (s' : S) (e : Option Err) (hidle : s.isRunning = false)
    (h : run task fuel s args = some (s', e)) :
    ∃ k, s'.calls = s.calls ++ args :: List.replicate k args := by
  cases fuel with
  | zero => simp [run] at h
  | succ g =>
    rw [run] at h
    simp only [hidle, Bool.false_eq_true, if_false] at h
    cases hx : execTask task g
        {s with isRunning := true, calls := s.calls ++ [args]}
        (task s.calls.length args) with
    | none => rw [hx] at h; exact absurd h (by simp)
    | some p =>
      obtain ⟨s2, r⟩ := p
      rw [hx] at h
      have hcalls : s2.calls = s.calls ++ [args] :=
        (execTask_busy task g _ _ s2 r (by simp) hx).2.1
      cases r with
      | inl v =>
        by_cases ht : isThenable v = true
        · simp only [ht, if_true, Option.some.injEq, Prod.mk.injEq] at h
          obtain ⟨h1, _⟩ := h
          exact ⟨0, by simp [← h1, hcalls]⟩
        · simp only [ht, if_false] at h
          obtain ⟨k, hk⟩ := complete_calls task g s2 args s' e h
          exact ⟨k, by simp [hk, hcalls]⟩
      | inr e2 =>
        simp only [] at h
        cases hc : complete task g s2 args with
        | none => rw [hc] at h; exact absurd h (by simp)
        | some q =>
          obtain ⟨s3, oe⟩ := q
          rw [hc] at h
          obtain ⟨k, hk⟩ := complete_calls task g s2 args s3 oe hc
          have h3 : s' = s3 := by
            cases oe <;> simp at h <;> exact h.1.symm
          subst h3
          exact ⟨k, by simp [hk, hcalls]⟩

/-- Witness for C7 at concrete inputs: one idle call of the always-async task
logs exactly its own arguments. -/
theorem c7_idle_invokes_synchronously_witness :
    ∃ k, (⟨true, false, some [7], [[7]]⟩ : S).calls =
      S.init.calls ++ ([7] : Args) :: List.replicate k ([7] : Args) :=
  c7_idle_invokes_synchronously asyncTask 2 S.init [7]
    ⟨true, false, some [7], [[7]]⟩ none rfl rfl

/-- C8: calls arriving while an execution is running are idempotent on the
runner state: any non-empty burst of them produces exactly the state of a
single such call (`hasPending` set, everything else untouched), none of them
invokes the task (the call log is unchanged), and none of them throws. -/
theorem c8_running_calls_idempotent (task : Task) (fuel : Nat) (s : S)
    (l : List Args) (hrun : s.isRunning = true) (hl : l ≠ []) :
    runEvents task (fuel+1) s (l.map Event.invoke) =
      some ({s with hasPending := true}, List.replicate l.length none) := by
  cases l with
  | nil => exact absurd rfl hl
  | cons a t =>
    have h1 : step task (fuel+1) s (.invoke a) =
        some ({s with hasPending := true}, none) :=
      run_busy task fuel s a hrun
    rw [List.map_cons, runEvents, h1]
    simp only []
    have h2 := runEvents_coalesced task fuel t {s with hasPending := true} []
      (by simpa using hrun) (by simp)
    simp only [List.append_nil] at h2
    rw [h2]
    simp [runEvents, List.replicate_succ]

/-- Witness for C8 at concrete inputs: two calls against a running state set
the flag once and leave the call log empty. -/
theorem c8_running_calls_idempotent_witness :
    runEvents asyncTask 1 ⟨true, false, none, []⟩
        ([[1], [2]].map Event.invoke) =
      some (⟨true, true, none, []⟩, List.replicate 2 none) :=
  c8_running_calls_idempotent asyncTask 0 ⟨true, false, none, []⟩
    [[1], [2]] rfl (by decide)

/-- C9: every task invocation performed while serving a `run` call — the
immediate execution and every follow-up chained from it — receives exactly
the argument list of that `run` call; the argument lists of coalesced calls
are never handed to the task (they appear nowhere in the log). -/
theorem c9_chain_replays_initial_args (task : Task) (fuel : Nat) (s : S)
    (args : Args) (s' : S) (e : Option Err)
    (h : run task fuel s args = some (s', e)) :
    ∃ k, s'.calls = s.calls ++ List.replicate k args :=
  run_calls task fuel s args s' e h

/-- Witness for C9 at concrete inputs. -/
theorem c9_chain_replays_initial_args_witness :
    ∃ k, (⟨true, false, some [5], [[5]]⟩ : S).calls =
      S.init.calls ++ List.replicate k ([5] : Args) :=
  c9_chain_replays_initial_args asyncTask 3 S.init [5]
    ⟨true, false, some [5], [[5]]⟩ none rfl

/-- C1 fails on the code: there is no recorded argument list that coalesced
calls update.  Concretely, call the runner with `[1]`, coalesce a call with
`[2]` while it runs, and settle: the follow-up runs the task with `[1]`
again — the log is `[[1], [1]]`, not the `[[1], [2]]` the claim requires. -/
theorem c1_latest_args_counterexample :
    runEvents asyncTask 5 S.init [.invoke [1], .invoke [2], .settleOk] =
      some (⟨true, false, some [1], [[1], [1]]⟩, [none, none, none]) ∧
    (⟨true, false, some [1], [[1], [1]]⟩ : S).calls ≠ [[1], [2]] :=
  ⟨rfl, by decide⟩

/-- C1 as amended: the runner records no per-call argument list — arguments
of coalesced calls are discarded — and the follow-up started by the
completion step runs the task with the arguments of the call that started
the execution that just completed, whatever the coalesced call supplied. -/
theorem c1_followup_replays_initial_args (fuel : Nat) (a b : Args) :
    runEvents asyncTask (fuel+3) S.init [.invoke a, .invoke b, .settleOk] =
      some (⟨true, false, some a, [a, a]⟩, [none, none, none]) := by
  have h1 : step asyncTask (fuel+3) S.init (.invoke a) =
      some (⟨true, false, some a, [a]⟩, none) :=
    step_idle_async (fuel+1) (.objV true) a none [] rfl
  have h2 : step asyncTask (fuel+3) (⟨true, false, some a, [a]⟩ : S) (.invoke b) =
      some (⟨true, true, some a, [a]⟩, none) :=
    run_busy asyncTask (fuel+2) ⟨true, false, some a, [a]⟩ b rfl
  have h3 : step asyncTask (fuel+3) (⟨true, true, some a, [a]⟩ : S) .settleOk =
      some (⟨true, false, some a, [a, a]⟩, none) :=
    settleStep_async_pending fuel (.objV true) a [a] rfl
  rw [runEvents_cons_eq h1, runEvents_cons_eq h2, runEvents_cons_eq h3]
  rfl

/-- C2: any burst of two or more calls that arrives before the first
execution settles produces exactly two task executions — the immediate one
and one follow-up after settlement — and a further settlement starts no
third run.  Stated for a task returning any thenable: a first call, a
coalesced second call, any number of further coalesced calls, then the two
settlements; the final log has exactly two entries and no call threw. -/
theorem c2_single_flight (fuel : Nat) (v : JsValue) (a b : Args)
    (cs : List Args) (hv : isThenable v = true) :
    runEvents (retTask v) (fuel+3) S.init
        (.invoke a :: .invoke b :: cs.map Event.invoke ++
          [.settleOk, .settleOk]) =
      some (⟨false, false, none, [a, a]⟩,
        none :: none :: (List.replicate cs.length none ++ [none, none])) := by
  have h1 : step (retTask v) (fuel+3) S.init (.invoke a) =
      some (⟨true, false, some a, [a]⟩, none) :=
    step_idle_async (fuel+1) v a none [] hv
  have h2 : step (retTask v) (fuel+3) (⟨true, false, some a, [a]⟩ : S)
      (.invoke b) = some (⟨true, true, some a, [a]⟩, none) :=
    run_busy (retTask v) (fuel+2) ⟨true, false, some a, [a]⟩ b rfl
  have h3 : step (retTask v) (fuel+3) (⟨true, true, some a, [a]⟩ : S)
      .settleOk = some (⟨true, false, some a, [a, a]⟩, none) :=
    settleStep_async_pending fuel v a [a] hv
  have h4 : step (retTask v) (fuel+3) (⟨true, false, some a, [a, a]⟩ : S)
      .settleOk = some (⟨false, false, none, [a, a]⟩, none) :=
    settleStep_quiet (retTask v) (fuel+2) a [a, a]
  have hrest : runEvents (retTask v) (fuel+3) (⟨true, true, some a, [a]⟩ : S)
      [.settleOk, .settleOk] =
      some (⟨false, false, none, [a, a]⟩, [none, none]) := by
    rw [runEvents_cons_eq h3, runEvents_cons_eq h4]
    rfl
  have hco : runEvents (retTask v) (fuel+3) (⟨true, true, some a, [a]⟩ : S)
      (cs.map Event.invoke ++ [.settleOk, .settleOk]) =
      (runEvents (retTask v) (fuel+3) ⟨true, true, some a, [a]⟩
          [.settleOk, .settleOk]).map
        (fun p => (p.1, List.replicate cs.length none ++ p.2)) :=
    runEvents_coalesced (retTask v) (fuel+2) cs _ _ rfl rfl
  simp only [List.cons_append]
  rw [runEvents_cons_eq h1, runEvents_cons_eq h2, hco, hrest]
  rfl

/-- Witness for C2 at concrete inputs: four back-to-back calls, two
settlements, two executions in total. -/
theorem c2_single_flight_witness :
    isThenable (.objV true) = true ∧
    runEvents (retTask (.objV true)) 3 S.init
        (.invoke [1] :: .invoke [2] :: [[3], [4]].map Event.invoke ++
          [.settleOk, .settleOk]) =
      some (⟨false, false, none, [[1], [1]]⟩,
        none :: none :: (List.replicate 2 none ++ [none, none])) :=
  ⟨rfl, c2_single_flight 0 (.objV true) [1] [2] [[3], [4]] rfl⟩

/-- C3: a rejected thenable surfaces nowhere.  First, settlement by
rejection drives exactly the same transition as settlement by fulfillment,
whatever the reason — the handler was attached through `.catch(() => {})`.
Second, on the concrete coalescing trace, the rejection event reports no
error to any caller and the pending follow-up still executes (two log
entries). -/
theorem c3_rejection_swallowed :
    (∀ (task : Task) (fuel : Nat) (s : S) (r : Err),
      step task fuel s (.settleErr r) = step task fuel s .settleOk) ∧
    (∀ (fuel : Nat) (a b : Args) (r : Err),
      runEvents asyncTask (fuel+3) S.init
          [.invoke a, .invoke b, .settleErr r] =
        some (⟨true, false, some a, [a, a]⟩, [none, none, none])) := by
  constructor
  · intro task fuel s r
    rfl
  · intro fuel a b r
    have h1 : step asyncTask (fuel+3) S.init (.invoke a) =
        some (⟨true, false, some a, [a]⟩, none) :=
      step_idle_async (fuel+1) (.objV true) a none [] rfl
    have h2 : step asyncTask (fuel+3) (⟨true, false, some a, [a]⟩ : S)
        (.invoke b) = some (⟨true, true, some a, [a]⟩, none) :=
      run_busy asyncTask (fuel+2) ⟨true, false, some a, [a]⟩ b rfl
    have h3 : step asyncTask (fuel+3) (⟨true, true, some a, [a]⟩ : S)
        (.settleErr r) = some (⟨true, false, some a, [a, a]⟩, none) :=
      settleStep_async_pending fuel (.objV true) a [a] rfl
    rw [runEvents_cons_eq h1, runEvents_cons_eq h2, runEvents_cons_eq h3]
    rfl

/-- C4: a task that throws synchronously from the idle state makes `run`
re-throw exactly that error to its caller after resetting to idle
(`isRunning` and `hasPending` both false), and a subsequent call executes
the task normally, logging its own invocation and throwing nothing. -/
theorem c4_sync_throw_recovery (fuel : Nat) (e : Err) (a b : Args) :
    runEvents (throwThenRet e) (fuel+2) S.init [.invoke a, .invoke b] =
      some (⟨false, false, none, [a, b]⟩, [some e, none]) := by
  have h1 : step (throwThenRet e) (fuel+2) S.init (.invoke a) =
      some (⟨false, false, none, [a]⟩, some e) := by
    show run (throwThenRet e) (fuel+2) S.init a =
      some (⟨false, false, none, [a]⟩, some e)
    rw [run]
    simp [execTask, throwThenRet, S.init,
      complete_quiet_eq (throwThenRet e) fuel ⟨true, false, none, [a]⟩ a rfl]
  have h2 : step (throwThenRet e) (fuel+2) (⟨false, false, none, [a]⟩ : S)
      (.invoke b) = some (⟨false, false, none, [a, b]⟩, none) := by
    show run (throwThenRet e) (fuel+2) ⟨false, false, none, [a]⟩ b =
      some (⟨false, false, none, [a, b]⟩, none)
    rw [run]
    simp [execTask, throwThenRet, isThenable, typeofStr, thenMember,
      complete_quiet_eq (throwThenRet e) fuel ⟨true, false, none, [a, b]⟩ b rfl]
  rw [runEvents_cons_eq h1, runEvents_cons_eq h2]
  rfl

/-- C10: when the task throws synchronously, the completion step runs before
the error is re-raised: here the task reentrantly coalesces a call (with
arguments `b`, which are discarded) and then throws `e`; `run` hands back a
state in which the follow-up execution has already run to completion
(`isRunning` false, two log entries, both with the original arguments `a`)
together with the original error `e` for its caller. -/
theorem c10_completion_precedes_rethrow (fuel : Nat) (e : Err) (a b : Args) :
    run (reinvokeThrowTask b e) (fuel+4) S.init a =
      some (⟨false, false, none, [a, a]⟩, some e) := by
  have hx : execTask (reinvokeThrowTask b e) (fuel+3)
      ⟨true, false, none, [a]⟩ (reinvokeThrowTask b e 0 a) =
      some (⟨true, true, none, [a]⟩, Sum.inr e) := by
    rw [show reinvokeThrowTask b e 0 a = .reinvoke b (.thrw e) from rfl]
    rw [execTask]
    rw [run_busy (reinvokeThrowTask b e) (fuel+1) ⟨true, false, none, [a]⟩ b rfl]
    simp only []
    rw [execTask]
  have hfollow : run (reinvokeThrowTask b e) (fuel+2)
      ⟨false, false, none, [a]⟩ a =
      some (⟨false, false, none, [a, a]⟩, none) := by
    rw [run]
    simp [execTask, reinvokeThrowTask, isThenable, typeofStr, thenMember,
      complete_quiet_eq (reinvokeThrowTask b e) fuel
        ⟨true, false, none, [a, a]⟩ a rfl]
  have hc : complete (reinvokeThrowTask b e) (fuel+3)
      ⟨true, true, none, [a]⟩ a =
      some (⟨false, false, none, [a, a]⟩, none) := by
    rw [complete_pending_eq (reinvokeThrowTask b e) (fuel+2)
      ⟨true, true, none, [a]⟩ a rfl]
    exact hfollow
  rw [run]
  simp only [S.init, Bool.false_eq_true, if_false, List.nil_append,
    List.length_nil]
  rw [hx]
  simp only []
  rw [hc]

end Coalesce
